import Mathlib

/-!
Shallow embedding of `sharnoff/eventdistributor` (distributor.go).

The repository implements an in-process single-producer / multi-consumer
broadcast primitive.  A `Distributor` holds a backlog `buf` of refcounted
slots, a `basePosition` offset, a `nextRefcount` for subscribers waiting at
the tail, and a lazily created broadcast channel `waiters`.  A `Reader` is a
cursor holding an absolute `position`.

Modelling decisions, all mirroring the Go source:
  * `int64` fields (`basePosition`, `refcount`, `nextRefcount`, positions)
    become `Int`; the claims are about the algorithm, not 64-bit wraparound.
  * Callbacks are modelled as an emitted trace of `Callback` events, in the
    order the Go code invokes them.
  * The `waiters` channel is modelled by allocation: `waiters : Option Nat`
    is the id of the currently stored channel, `nextChanId` the allocator
    counter, and `closedChans` the ids that have been closed.  `close(ch)`
    appends the id to `closedChans`.  The package-level `closedChannel` is
    the `WaitHandle.alreadyClosed` constructor.
  * A Go panic (out-of-range index, nil `Distributor` pointer after
    `Unsubscribe`) is `none`: the operation aborts without mutating state,
    matching Go, where the nil dereference / bounds check fires before any
    write to shared state.
-/

/-- One backlog slot: `eventInfo` in distributor.go (refcount + value). -/
structure EventInfo (T : Type) where
  refcount : Int
  value : T
  deriving DecidableEq

/-- Callback invocations, recorded as a trace in invocation order. -/
inductive Callback (T : Type) where
  | onBufsizeChange (size : Nat)
  | onSubmit (v : T)
  | onFullyConsumed (v : T)
  deriving DecidableEq

/-- Distributor state (distributor.go lines 7-19).  The mutex is not
modelled: every public operation is a single atomic step. -/
structure Distributor (T : Type) where
  basePosition : Int
  buf : List (EventInfo T)
  nextRefcount : Int
  waiters : Option Nat
  nextChanId : Nat
  closedChans : List Nat
  deriving DecidableEq

/-- The value `New` returns with no options: all fields zero (lines 29-48). -/
def Distributor.new (T : Type) : Distributor T :=
  { basePosition := 0, buf := [], nextRefcount := 0,
    waiters := none, nextChanId := 0, closedChans := [] }

/-- The loop of `cleanupOldEvents` (lines 186-192) computing `firstNonEmpty`:
the number of leading slots whose refcount is zero. -/
def firstNonEmpty {T : Type} : List (EventInfo T) → Nat
  | [] => 0
  | e :: rest => if e.refcount ≠ 0 then 0 else firstNonEmpty rest + 1

/-- Embedding of `cleanupOldEvents` (lines 179-206): fire `onFullyConsumed` for each
leading zero-refcount slot, drop them, advance `basePosition`, and fire
`onBufsizeChange` if anything was dropped. -/
def cleanupOldEvents {T : Type} (d : Distributor T) : Distributor T × List (Callback T) :=
  if d.buf.length = 0 then (d, [])
  else
    let k := firstNonEmpty d.buf
    let fired := (d.buf.take k).map (fun e => Callback.onFullyConsumed e.value)
    if k = 0 then (d, fired)
    else
      ({ d with buf := d.buf.drop k, basePosition := d.basePosition + (k : Int) },
        fired ++ [Callback.onBufsizeChange (d.buf.drop k).length])

/-- Embedding of `Submit` (lines 59-82): run `onSubmit`; with an empty backlog and zero
`nextRefcount`, fire `onFullyConsumed` immediately and discard (the
no-audience fast path); otherwise append a slot seeded with `nextRefcount`,
reset it, close and clear `waiters` if present, and fire `onBufsizeChange`. -/
def Distributor.Submit {T : Type} (d : Distributor T) (value : T) :
    Distributor T × List (Callback T) :=
  if d.buf.length = 0 ∧ d.nextRefcount = 0 then
    (d, [Callback.onSubmit value, Callback.onFullyConsumed value])
  else
    let newBuf := d.buf ++ [{ refcount := d.nextRefcount, value := value }]
    let closed := match d.waiters with
      | some id => id :: d.closedChans
      | none => d.closedChans
    ({ d with buf := newBuf, nextRefcount := 0, waiters := none, closedChans := closed },
      [Callback.onSubmit value, Callback.onBufsizeChange newBuf.length])

/-- Embedding of `Subscribe` (lines 90-99): bump `nextRefcount` and return a reader
positioned at the tail.  The returned `Int` is the new reader position. -/
def Distributor.Subscribe {T : Type} (d : Distributor T) : Distributor T × Int :=
  ({ d with nextRefcount := d.nextRefcount + 1 },
    d.basePosition + (d.buf.length : Int))

/-- What `WaitChan` returns: either the package-level permanently closed
channel (line 106-110) or a handle to an allocated channel. -/
inductive WaitHandle where
  | alreadyClosed
  | chanId (id : Nat)
  deriving DecidableEq

/-- Whether a handle is closed (signalled) in a given distributor state. -/
def WaitHandle.isClosed {T : Type} (d : Distributor T) : WaitHandle → Bool
  | .alreadyClosed => true
  | .chanId id => d.closedChans.contains id

/-- Embedding of `WaitChan` (lines 116-128) for a reader at absolute `position`: return
the always-closed channel when an unseen event exists, otherwise return the
shared `waiters` channel, allocating it if absent. -/
def waitChan {T : Type} (d : Distributor T) (position : Int) :
    WaitHandle × Distributor T :=
  if position - d.basePosition < (d.buf.length : Int) then
    (WaitHandle.alreadyClosed, d)
  else
    match d.waiters with
    | some id => (WaitHandle.chanId id, d)
    | none =>
        (WaitHandle.chanId d.nextChanId,
          { d with waiters := some d.nextChanId, nextChanId := d.nextChanId + 1 })

/-- Add `delta` to the refcount of the slot at index `i` (the Go statements
`buf[idx].refcount -= 1` / `buf[idx+1].refcount += 1`). -/
def addRef {T : Type} (delta : Int) : Nat → List (EventInfo T) → List (EventInfo T)
  | _, [] => []
  | 0, e :: rest => { e with refcount := e.refcount + delta } :: rest
  | n + 1, e :: rest => e :: addRef delta n rest

/-- Embedding of `Reader.Consume` (lines 134-151) for a reader at absolute `position`:
read the slot at `idx = position - basePosition` (a Go panic — `none` — if
out of range), decrement its refcount, advance the position by one, move the
claim forward (refcount of `idx+1`, or `nextRefcount` at the tail), then run
`cleanupOldEvents`.  Returns the value, the new reader position, the new
distributor state and the emitted callbacks. -/
def consume {T : Type} (d : Distributor T) (position : Int) :
    Option (T × Int × Distributor T × List (Callback T)) :=
  let idx := position - d.basePosition
  if idx < 0 ∨ (d.buf.length : Int) ≤ idx then none
  else
    match d.buf.get? idx.toNat with
    | none => none
    | some e =>
        let buf1 := addRef (-1) idx.toNat d.buf
        let d1 :=
          if idx.toNat + 1 < d.buf.length then
            { d with buf := addRef 1 (idx.toNat + 1) buf1 }
          else
            { d with buf := buf1, nextRefcount := d.nextRefcount + 1 }
        let cleaned := cleanupOldEvents d1
        some (e.value, position + 1, cleaned.1, cleaned.2)

/-- Embedding of `EventReader.Consume` of the legacy variant (lines 332-348): textually
identical to `Reader.Consume` except that it never advances the reader
position (`r.position += 1` is absent), so the returned position equals the
argument. -/
def consumeLegacy {T : Type} (d : Distributor T) (position : Int) :
    Option (T × Int × Distributor T × List (Callback T)) :=
  let idx := position - d.basePosition
  if idx < 0 ∨ (d.buf.length : Int) ≤ idx then none
  else
    match d.buf.get? idx.toNat with
    | none => none
    | some e =>
        let buf1 := addRef (-1) idx.toNat d.buf
        let d1 :=
          if idx.toNat + 1 < d.buf.length then
            { d with buf := addRef 1 (idx.toNat + 1) buf1 }
          else
            { d with buf := buf1, nextRefcount := d.nextRefcount + 1 }
        let cleaned := cleanupOldEvents d1
        some (e.value, position, cleaned.1, cleaned.2)

/-- Embedding of `Unsubscribe` (lines 160-177) for a reader at absolute `position`:
if the index is inside the backlog, decrement that slot refcount and run
`cleanupOldEvents` when the index is 0; otherwise decrement `nextRefcount`.
A negative index panics in Go (`buf[idx]` with `idx < 0`), hence `none`. -/
def unsubscribe {T : Type} (d : Distributor T) (position : Int) :
    Option (Distributor T × List (Callback T)) :=
  let idx := position - d.basePosition
  if idx < (d.buf.length : Int) then
    if idx < 0 then none
    else
      let d1 := { d with buf := addRef (-1) idx.toNat d.buf }
      if idx = 0 then some (cleanupOldEvents d1)
      else some (d1, [])
  else
    some ({ d with nextRefcount := d.nextRefcount - 1 }, [])

/-- A reader as tracked by the whole-system model: its cursor plus whether
`Unsubscribe` has nilled out its distributor pointer (`active = false`). -/
structure RState where
  active : Bool
  position : Int
  deriving DecidableEq

/-- Whole-system state: the distributor plus every reader ever subscribed. -/
structure Sys (T : Type) where
  dist : Distributor T
  readers : List RState
  deriving DecidableEq

/-- The public operations, readers named by subscription order. -/
inductive DistOp (T : Type) where
  | submit (v : T)
  | subscribe
  | waitChanOp (i : Nat)
  | consumeOp (i : Nat)
  | unsubscribeOp (i : Nat)
  deriving DecidableEq

/-- The initial system: a zero-value `Distributor` and no readers. -/
def initSys (T : Type) : Sys T := { dist := Distributor.new T, readers := [] }

/-- One public operation as a step on the whole system.  `none` is a Go
panic: calling through a nil distributor pointer (a retired reader), or an
out-of-range `Consume`/`Unsubscribe` index.  In Go these fire before any
write to shared state, so a panicking step changes nothing. -/
def applyAct {T : Type} (s : Sys T) : DistOp T → Option (Sys T × List (Callback T))
  | .submit v =>
      let r := s.dist.Submit v
      some ({ s with dist := r.1 }, r.2)
  | .subscribe =>
      let r := s.dist.Subscribe
      some ({ dist := r.1, readers := s.readers ++ [{ active := true, position := r.2 }] }, [])
  | .waitChanOp i =>
      match s.readers.get? i with
      | some r =>
          if r.active then
            some ({ s with dist := (waitChan s.dist r.position).2 }, [])
          else none
      | none => none
  | .consumeOp i =>
      match s.readers.get? i with
      | some r =>
          if r.active then
            match consume s.dist r.position with
            | some (_, pos, d, cbs) =>
                some ({ dist := d, readers := s.readers.set i { active := true, position := pos } }, cbs)
            | none => none
          else none
      | none => none
  | .unsubscribeOp i =>
      match s.readers.get? i with
      | some r =>
          if r.active then
            match unsubscribe s.dist r.position with
            | some (d, cbs) =>
                some ({ dist := d, readers := s.readers.set i { active := false, position := r.position } }, cbs)
            | none => none
          else none
      | none => none

/-- Run a list of operations from a state, accumulating the callback trace;
`none` as soon as any step panics. -/
def runActs {T : Type} (s : Sys T) : List (DistOp T) → Option (Sys T × List (Callback T))
  | [] => some (s, [])
  | a :: rest =>
      match applyAct s a with
      | some (s1, cbs) =>
          match runActs s1 rest with
          | some (s2, cbs2) => some (s2, cbs ++ cbs2)
          | none => none
      | none => none

/-- The values carried by the `onFullyConsumed` events of a trace. -/
def fcValues {T : Type} (tr : List (Callback T)) : List T :=
  tr.filterMap (fun c => match c with
    | Callback.onFullyConsumed v => some v
    | _ => none)

/-- The values carried by the `onSubmit` events of a trace. -/
def submitValues {T : Type} (tr : List (Callback T)) : List T :=
  tr.filterMap (fun c => match c with
    | Callback.onSubmit v => some v
    | _ => none)

/-- The sizes carried by the `onBufsizeChange` events of a trace. -/
def bufsizeValues {T : Type} (tr : List (Callback T)) : List Nat :=
  tr.filterMap (fun c => match c with
    | Callback.onBufsizeChange n => some n
    | _ => none)

/-- A distributor holding one event claimed by two readers: the state after
`Subscribe; Subscribe; Submit 42` with both readers at position 0. -/
def legacyProbe : Distributor Nat :=
  { basePosition := 0, buf := [{ refcount := 2, value := 42 }], nextRefcount := 0,
    waiters := none, nextChanId := 0, closedChans := [] }

/-- What one `Consume` call does, stated for a distributor `d` and a reader
at absolute position `p` whose slot is `e` (index `p - basePosition`): the
call returns `e.value` and the advanced cursor `p + 1`; the bookkeeping state
`d1` passed to the trailing `cleanupOldEvents` has the consumed slot's
refcount decremented, every slot other than `idx` and `idx+1` untouched, and
the claim moved forward — `idx+1`'s refcount incremented when a next slot
exists, `nextRefcount` incremented otherwise; and the surviving backlog
read through absolute positions is unchanged, so the slot at `p + 1` (the
next submission) is what the next call returns. -/
def ConsumeSpec {T : Type} (d : Distributor T) (p : Int) (e : EventInfo T) : Prop :=
  ∃ d1 : Distributor T,
    consume d p = some (e.value, p + 1, (cleanupOldEvents d1).1, (cleanupOldEvents d1).2) ∧
    d1.basePosition = d.basePosition ∧
    d1.buf.length = d.buf.length ∧
    d1.buf.get? (p - d.basePosition).toNat = some { e with refcount := e.refcount - 1 } ∧
    (∀ j, j ≠ (p - d.basePosition).toNat → j ≠ (p - d.basePosition).toNat + 1 →
      d1.buf.get? j = d.buf.get? j) ∧
    (if (p - d.basePosition).toNat + 1 < d.buf.length then
      d1.nextRefcount = d.nextRefcount ∧
      ∃ e2, d.buf.get? ((p - d.basePosition).toNat + 1) = some e2 ∧
        d1.buf.get? ((p - d.basePosition).toNat + 1) =
          some { e2 with refcount := e2.refcount + 1 }
    else
      d1.nextRefcount = d.nextRefcount + 1) ∧
    (∀ q : Int, (cleanupOldEvents d1).1.basePosition ≤ q →
      (((cleanupOldEvents d1).1).buf.get?
          (q - ((cleanupOldEvents d1).1).basePosition).toNat).map (fun s => s.value) =
        (d.buf.get? (q - d.basePosition).toNat).map (fun s => s.value))

/-- A distributor holding two events, each claimed once, both readers at the
front. -/
def consumeProbe : Distributor Nat :=
  { basePosition := 0, buf := [{ refcount := 1, value := 10 }, { refcount := 1, value := 20 }],
    nextRefcount := 0, waiters := none, nextChanId := 0, closedChans := [] }

/-- A system with one subscribed reader waiting at the tail. -/
def oneReaderSys : Sys Nat :=
  { dist := { basePosition := 0, buf := [], nextRefcount := 1,
              waiters := none, nextChanId := 0, closedChans := [] },
    readers := [{ active := true, position := 0 }] }

/-- The system state after `oneReaderSys` receives `Submit 7`. -/
def oneReaderSysAfter : Sys Nat :=
  { dist := { basePosition := 0, buf := [{ refcount := 1, value := 7 }],
              nextRefcount := 0, waiters := none, nextChanId := 0, closedChans := [] },
    readers := [{ active := true, position := 0 }] }

/-- The broadcast-wakeup property for two unready readers at positions
`p1`, `p2`, a submitted value `v`, and a later wait at position `p3`: both
`WaitChan` calls return the same not-yet-signalled shared handle, the
Submit closes exactly that handle (waking both readers simultaneously) and
clears the stored handle, and a wait that begins only after the Submit gets
a fresh, distinct, not-yet-signalled handle — the old notification cannot
signal it. -/
def BroadcastSpec {T : Type} (d : Distributor T) (p1 p2 p3 : Int) (v : T) : Prop :=
  ∃ id : Nat, ∃ d1 d2 : Distributor T,
    waitChan d p1 = (WaitHandle.chanId id, d1) ∧
    waitChan d1 p2 = (WaitHandle.chanId id, d2) ∧
    WaitHandle.isClosed d2 (WaitHandle.chanId id) = false ∧
    WaitHandle.isClosed (d2.Submit v).1 (WaitHandle.chanId id) = true ∧
    (d2.Submit v).1.waiters = none ∧
    ∃ id2 : Nat, ∃ d4 : Distributor T,
      waitChan (d2.Submit v).1 p3 = (WaitHandle.chanId id2, d4) ∧
      id2 ≠ id ∧
      WaitHandle.isClosed d4 (WaitHandle.chanId id2) = false

/-- Number of live (subscribed, not yet unsubscribed) readers whose cursor
sits at absolute position `q`. -/
def readersAt (rs : List RState) (q : Int) : Nat :=
  rs.countP (fun r => r.active && decide (r.position = q))

/-- The counting invariant of the distributor: each slot refcount equals the
number of live readers at its absolute position, `nextRefcount` equals the
number of live readers at the tail, and every live reader's cursor lies
between `basePosition` and the tail. -/
def DInv {T : Type} (d : Distributor T) (rs : List RState) : Prop :=
  (∀ i e, d.buf.get? i = some e →
    e.refcount = (readersAt rs (d.basePosition + (i : Int)) : Int)) ∧
  d.nextRefcount = (readersAt rs (d.basePosition + (d.buf.length : Int)) : Int) ∧
  (∀ r ∈ rs, r.active = true →
    d.basePosition ≤ r.position ∧ r.position ≤ d.basePosition + (d.buf.length : Int))

/-- A nonempty backlog keeps a head slot with nonzero refcount. -/
def HeadNZ {T : Type} (d : Distributor T) : Prop :=
  ∀ e, d.buf.get? 0 = some e → e.refcount ≠ 0

/-- Whole-system invariant. -/
def SysInv {T : Type} (s : Sys T) : Prop := DInv s.dist s.readers ∧ HeadNZ s.dist

/-- A reachable system with one subscribed reader and one retained event:
the result of `Subscribe; Submit 5` from the zero-value distributor. -/
def headProbeSys : Sys Nat :=
  { dist := { basePosition := 0, buf := [{ refcount := 1, value := 5 }],
              nextRefcount := 0, waiters := none, nextChanId := 0, closedChans := [] },
    readers := [{ active := true, position := 0 }] }

/-! Helper lemmas about `addRef` and `firstNonEmpty`. -/

theorem addRef_length {T : Type} (delta : Int) (i : Nat) (l : List (EventInfo T)) :
    (addRef delta i l).length = l.length := by
  induction l generalizing i with
  | nil => cases i <;> rfl
  | cons a rest ih =>
      cases i with
      | zero => rfl
      | succ n => simp [addRef, ih]

theorem addRef_get_self {T : Type} (delta : Int) (i : Nat) (l : List (EventInfo T))
    (e : EventInfo T) (h : l.get? i = some e) :
    (addRef delta i l).get? i = some { e with refcount := e.refcount + delta } := by
  induction l generalizing i with
  | nil => simp [List.get?] at h
  | cons a rest ih =>
      cases i with
      | zero =>
          simp only [List.get?] at h
          cases h
          rfl
      | succ n =>
          simp only [List.get?] at h ⊢
          exact ih n h

theorem addRef_get_ne {T : Type} (delta : Int) (i j : Nat) (l : List (EventInfo T))
    (h : j ≠ i) : (addRef delta i l).get? j = l.get? j := by
  induction l generalizing i j with
  | nil => cases i <;> rfl
  | cons a rest ih =>
      cases i with
      | zero =>
          cases j with
          | zero => exact absurd rfl h
          | succ m => rfl
      | succ n =>
          cases j with
          | zero => rfl
          | succ m =>
              simp only [addRef, List.get?]
              exact ih n m (fun hx => h (by rw [hx]))

theorem addRef_get_value {T : Type} (delta : Int) (i j : Nat) (l : List (EventInfo T)) :
    ((addRef delta i l).get? j).map (fun s => s.value) = (l.get? j).map (fun s => s.value) := by
  by_cases hji : j = i
  · subst hji
    cases h : l.get? j with
    | none =>
        rw [List.get?_eq_none.mpr]
        rw [addRef_length]
        exact List.get?_eq_none.mp h
    | some e => rw [addRef_get_self delta j l e h]; rfl
  · rw [addRef_get_ne delta i j l hji]

theorem addRef_map_value {T : Type} (delta : Int) (i : Nat) (l : List (EventInfo T)) :
    (addRef delta i l).map (fun s => s.value) = l.map (fun s => s.value) := by
  induction l generalizing i with
  | nil => cases i <;> rfl
  | cons a rest ih =>
      cases i with
      | zero => rfl
      | succ n => simp [addRef, ih]

theorem firstNonEmpty_le {T : Type} (l : List (EventInfo T)) :
    firstNonEmpty l ≤ l.length := by
  induction l with
  | nil => exact Nat.le_refl 0
  | cons a rest ih =>
      simp only [firstNonEmpty]
      split
      · exact Nat.zero_le _
      · simpa using Nat.succ_le_succ ih

theorem firstNonEmpty_zero {T : Type} (l : List (EventInfo T)) (i : Nat) (e : EventInfo T)
    (hi : i < firstNonEmpty l) (h : l.get? i = some e) : e.refcount = 0 := by
  induction l generalizing i with
  | nil => simp [List.get?] at h
  | cons a rest ih =>
      simp only [firstNonEmpty] at hi
      by_cases ha : a.refcount ≠ 0
      · rw [if_pos ha] at hi
        exact absurd hi (Nat.not_lt_zero i)
      · rw [if_neg ha] at hi
        cases i with
        | zero =>
            simp only [List.get?] at h
            cases h
            exact not_not.mp ha
        | succ n =>
            simp only [List.get?] at h
            exact ih n (Nat.lt_of_succ_lt_succ hi) h

theorem firstNonEmpty_stop {T : Type} (l : List (EventInfo T)) (e : EventInfo T)
    (h : l.get? (firstNonEmpty l) = some e) : e.refcount ≠ 0 := by
  induction l with
  | nil => simp [List.get?] at h
  | cons a rest ih =>
      simp only [firstNonEmpty] at h
      by_cases ha : a.refcount ≠ 0
      · rw [if_pos ha] at h
        simp only [List.get?] at h
        cases h
        exact ha
      · rw [if_neg ha] at h
        simp only [List.get?] at h
        exact ih h

/-- Characterization of `cleanupOldEvents`: there is a cut `k` (the number of
leading zero-refcount slots) such that exactly the first `k` slots are
dropped, `onFullyConsumed` fires for each of them front to back,
`basePosition` advances by `k`, every other field is untouched, and
`onBufsizeChange` fires with the new length iff `k > 0`. -/
theorem cleanup_char {T : Type} (d : Distributor T) :
    ∃ k : Nat, k ≤ d.buf.length ∧
      (∀ i e, i < k → d.buf.get? i = some e → e.refcount = 0) ∧
      (∀ e, d.buf.get? k = some e → e.refcount ≠ 0) ∧
      (cleanupOldEvents d).1 =
        { d with buf := d.buf.drop k, basePosition := d.basePosition + (k : Int) } ∧
      (cleanupOldEvents d).2 =
        (d.buf.take k).map (fun e => Callback.onFullyConsumed e.value) ++
          (if k = 0 then [] else [Callback.onBufsizeChange (d.buf.drop k).length]) := by
  by_cases hlen : d.buf.length = 0
  · refine ⟨0, Nat.zero_le _, ?_, ?_, ?_, ?_⟩
    · intro i e hi
      exact absurd hi (Nat.not_lt_zero i)
    · intro e he
      rw [List.length_eq_zero.mp hlen] at he
      simp [List.get?] at he
    · simp [cleanupOldEvents, hlen]
    · simp [cleanupOldEvents, hlen]
  · refine ⟨firstNonEmpty d.buf, firstNonEmpty_le d.buf,
      fun i e hi h => firstNonEmpty_zero d.buf i e hi h,
      fun e h => firstNonEmpty_stop d.buf e h, ?_, ?_⟩
    · by_cases hk : firstNonEmpty d.buf = 0
      · simp [cleanupOldEvents, hlen, hk]
      · simp [cleanupOldEvents, hlen, hk]
    · by_cases hk : firstNonEmpty d.buf = 0
      · simp [cleanupOldEvents, hlen, hk]
      · simp [cleanupOldEvents, hlen, hk]

/-- C5: `cleanupOldEvents` removes slots from the front while and only while
the head slot refcount is exactly zero: there is a cut `k` such that the
first `k` slots all have refcount zero, the slot at `k` (if any) has nonzero
refcount and survives together with everything behind it, `onFullyConsumed`
fires with each dropped value front to back, `basePosition` advances by
exactly `k`, all other fields are untouched, and `onBufsizeChange` fires
with the new backlog length iff at least one slot was dropped. -/
theorem trim_front_zero_refcounts {T : Type} (d : Distributor T) :
    ∃ k : Nat, k ≤ d.buf.length ∧
      (∀ i e, i < k → d.buf.get? i = some e → e.refcount = 0) ∧
      (∀ e, d.buf.get? k = some e → e.refcount ≠ 0) ∧
      (cleanupOldEvents d).1 =
        { d with buf := d.buf.drop k, basePosition := d.basePosition + (k : Int) } ∧
      (cleanupOldEvents d).2 =
        (d.buf.take k).map (fun e => Callback.onFullyConsumed e.value) ++
          (if k = 0 then [] else [Callback.onBufsizeChange (d.buf.drop k).length]) :=
  cleanup_char d

/-- C4: Submit on an empty backlog with zero `nextRefcount` runs `onSubmit`
then `onFullyConsumed` synchronously with the submitted value, emits no
`onBufsizeChange`, and returns the distributor state literally unchanged. -/
theorem submit_no_audience {T : Type} (d : Distributor T) (v : T)
    (h1 : d.buf = []) (h2 : d.nextRefcount = 0) :
    d.Submit v = (d, [Callback.onSubmit v, Callback.onFullyConsumed v]) := by
  simp [Distributor.Submit, h1, h2]

/-- Witness for `submit_no_audience` at the zero-value distributor. -/
theorem submit_no_audience_w :
    (Distributor.new Nat).buf = [] ∧ (Distributor.new Nat).nextRefcount = 0 ∧
      Distributor.Submit (Distributor.new Nat) 5 =
        (Distributor.new Nat, [Callback.onSubmit 5, Callback.onFullyConsumed 5]) :=
  ⟨rfl, rfl, submit_no_audience (Distributor.new Nat) 5 rfl rfl⟩


/-- C3: the legacy `EventReader.Consume` (line 332) is not a behavioural
duplicate of `Reader.Consume` (line 134): it omits `r.position += 1`.  On
`legacyProbe` the primary Consume returns the event and advances the cursor
to 1, while the legacy Consume returns the event and leaves the cursor at 0;
a second legacy Consume then returns the very same event again, contradicting
its own doc comment ("marking it as seen so that the next call to WaitChan()
will require a newer event"). -/
theorem legacy_consume_missing_advance :
    (consume legacyProbe 0).map (fun r => (r.1, r.2.1)) = some (42, 1) ∧
    (consumeLegacy legacyProbe 0).map (fun r => (r.1, r.2.1)) = some (42, 0) ∧
    ((consumeLegacy legacyProbe 0).bind (fun r =>
      (consumeLegacy r.2.2.1 r.2.1).map (fun r2 => (r2.1, r2.2.1)))) = some (42, 0) := by
  refine ⟨rfl, rfl, rfl⟩


/-- C1: each `Consume` call on an in-range reader behaves as `ConsumeSpec`
says: it returns the value of the slot at the reader's position, decrements
that slot's refcount, advances the position by exactly one, moves the claim
forward, and preserves the position-indexed view of retained events, which
is what makes repeated calls return events in strict submission order. -/
theorem consume_advances_cursor {T : Type} (d : Distributor T) (p : Int) (e : EventInfo T)
    (hlo : d.basePosition ≤ p)
    (hget : d.buf.get? (p - d.basePosition).toNat = some e) :
    ConsumeSpec d p e := by
  have hnneg : 0 ≤ p - d.basePosition := by omega
  obtain ⟨hlt, -⟩ := List.get?_eq_some.mp hget
  have hcond : ¬(p - d.basePosition < 0 ∨ (d.buf.length : Int) ≤ p - d.basePosition) := by
    push_neg
    refine ⟨hnneg, ?_⟩
    omega
  have hstab : ∀ (d1 : Distributor T), d1.basePosition = d.basePosition →
      (∀ j, ((d1.buf.get? j).map (fun s => s.value)) = ((d.buf.get? j).map (fun s => s.value))) →
      (∀ q : Int, (cleanupOldEvents d1).1.basePosition ≤ q →
        (((cleanupOldEvents d1).1).buf.get?
            (q - ((cleanupOldEvents d1).1).basePosition).toNat).map (fun s => s.value) =
          (d.buf.get? (q - d.basePosition).toNat).map (fun s => s.value)) := by
    intro d1 hbase hval q hq
    obtain ⟨k, hk, -, -, hc1, -⟩ := cleanup_char d1
    rw [hc1] at hq ⊢
    simp only at hq ⊢
    rw [List.get?_drop]
    have harith : k + (q - (d1.basePosition + (k : Int))).toNat = (q - d1.basePosition).toNat := by
      omega
    rw [harith, hval, hbase]
  unfold ConsumeSpec
  by_cases hbr : (p - d.basePosition).toNat + 1 < d.buf.length
  · refine ⟨{ d with buf := addRef 1 ((p - d.basePosition).toNat + 1) (addRef (-1) (p - d.basePosition).toNat d.buf) }, ?_, rfl, ?_, ?_, ?_, ?_, ?_⟩
    · simp only [consume]
      rw [if_neg hcond, hget]
      simp only [if_pos hbr]
    · simp only [addRef_length]
    · rw [addRef_get_ne 1 _ _ _ (by omega),
        addRef_get_self (-1) _ _ e hget]
      simp only [sub_eq_add_neg]
    · intro j hj1 hj2
      simp only
      rw [addRef_get_ne 1 _ _ _ hj2, addRef_get_ne (-1) _ _ _ hj1]
    · rw [if_pos hbr]
      refine ⟨rfl, ?_⟩
      cases h2 : d.buf.get? ((p - d.basePosition).toNat + 1) with
      | none =>
          rw [List.get?_eq_none] at h2
          omega
      | some e2 =>
          refine ⟨e2, rfl, ?_⟩
          simp only
          rw [addRef_get_self 1 _ _ e2 (by rw [addRef_get_ne (-1) _ _ _ (by omega)]; exact h2)]
    · refine hstab _ rfl ?_
      intro j
      simp only
      rw [addRef_get_value, addRef_get_value]
  · refine ⟨{ d with buf := addRef (-1) (p - d.basePosition).toNat d.buf, nextRefcount := d.nextRefcount + 1 }, ?_, rfl, ?_, ?_, ?_, ?_, ?_⟩
    · simp only [consume]
      rw [if_neg hcond, hget]
      simp only [if_neg hbr]
    · simp only [addRef_length]
    · rw [addRef_get_self (-1) _ _ e hget]
      simp only [sub_eq_add_neg]
    · intro j hj1 hj2
      simp only
      rw [addRef_get_ne (-1) _ _ _ hj1]
    · rw [if_neg hbr]
    · refine hstab _ rfl ?_
      intro j
      simp only
      rw [addRef_get_value]


/-- Witness for `consume_advances_cursor` on `consumeProbe` at position 0. -/
theorem consume_advances_cursor_w :
    consumeProbe.basePosition ≤ 0 ∧
    consumeProbe.buf.get? ((0 : Int) - consumeProbe.basePosition).toNat =
      some { refcount := 1, value := 10 } ∧
    ConsumeSpec consumeProbe 0 { refcount := 1, value := 10 } :=
  ⟨by decide, by decide,
    consume_advances_cursor consumeProbe 0 { refcount := 1, value := 10 }
      (by decide) (by decide)⟩

/-! Trace-filter append and map lemmas. -/

theorem fcValues_append {T : Type} (t1 t2 : List (Callback T)) :
    fcValues (t1 ++ t2) = fcValues t1 ++ fcValues t2 := by
  simp [fcValues, List.filterMap_append]

theorem submitValues_append {T : Type} (t1 t2 : List (Callback T)) :
    submitValues (t1 ++ t2) = submitValues t1 ++ submitValues t2 := by
  simp [submitValues, List.filterMap_append]

theorem bufsizeValues_append {T : Type} (t1 t2 : List (Callback T)) :
    bufsizeValues (t1 ++ t2) = bufsizeValues t1 ++ bufsizeValues t2 := by
  simp [bufsizeValues, List.filterMap_append]

theorem fcValues_fc_map {T : Type} (l : List (EventInfo T)) :
    fcValues (l.map (fun e => Callback.onFullyConsumed e.value)) =
      l.map (fun e => e.value) := by
  induction l with
  | nil => rfl
  | cons a rest ih => simpa [fcValues, List.filterMap_cons] using ih

theorem submitValues_fc_map {T : Type} (l : List (EventInfo T)) :
    submitValues (l.map (fun e => Callback.onFullyConsumed e.value)) = [] := by
  induction l with
  | nil => rfl
  | cons a rest ih => simpa [submitValues, List.filterMap_cons] using ih

theorem bufsizeValues_fc_map {T : Type} (l : List (EventInfo T)) :
    bufsizeValues (l.map (fun e => Callback.onFullyConsumed e.value)) = [] := by
  induction l with
  | nil => rfl
  | cons a rest ih => simpa [bufsizeValues, List.filterMap_cons] using ih

/-- The operation `waitChan` never touches the backlog, base position or refcounts. -/
theorem waitChan_fields {T : Type} (d : Distributor T) (p : Int) :
    (waitChan d p).2.buf = d.buf ∧ (waitChan d p).2.basePosition = d.basePosition ∧
      (waitChan d p).2.nextRefcount = d.nextRefcount := by
  unfold waitChan
  split
  · exact ⟨rfl, rfl, rfl⟩
  · cases hw : d.waiters <;> simp [hw]

/-- The successful results of `consume` all have the same shape: a trailing
`cleanupOldEvents` applied to a bookkeeping state `d1` that differs from `d`
only in refcounts. -/
theorem consume_shape {T : Type} (d : Distributor T) (p : Int) (v : T) (p2 : Int)
    (d2 : Distributor T) (cbs : List (Callback T))
    (h : consume d p = some (v, p2, d2, cbs)) :
    ∃ d1 : Distributor T, d1.buf.length = d.buf.length ∧
      d1.basePosition = d.basePosition ∧
      d1.buf.map (fun e => e.value) = d.buf.map (fun e => e.value) ∧
      d2 = (cleanupOldEvents d1).1 ∧ cbs = (cleanupOldEvents d1).2 := by
  simp only [consume] at h
  by_cases hc : (p - d.basePosition < 0 ∨ (d.buf.length : Int) ≤ p - d.basePosition)
  · rw [if_pos hc] at h
    cases h
  · rw [if_neg hc] at h
    cases hget : d.buf.get? (p - d.basePosition).toNat with
    | none =>
        rw [hget] at h
        cases h
    | some e =>
        rw [hget] at h
        by_cases hbr : (p - d.basePosition).toNat + 1 < d.buf.length
        · rw [if_pos hbr] at h
          simp only [Option.some.injEq, Prod.mk.injEq] at h
          obtain ⟨-, -, h3, h4⟩ := h
          refine ⟨{ d with buf := addRef 1 ((p - d.basePosition).toNat + 1) (addRef (-1) (p - d.basePosition).toNat d.buf) }, ?_, rfl, ?_, ?_, ?_⟩
          · simp [addRef_length]
          · simp only
            rw [addRef_map_value, addRef_map_value]
          · exact h3.symm
          · exact h4.symm
        · rw [if_neg hbr] at h
          simp only [Option.some.injEq, Prod.mk.injEq] at h
          obtain ⟨-, -, h3, h4⟩ := h
          refine ⟨{ d with buf := addRef (-1) (p - d.basePosition).toNat d.buf, nextRefcount := d.nextRefcount + 1 }, ?_, rfl, ?_, ?_, ?_⟩
          · simp [addRef_length]
          · simp only
            rw [addRef_map_value]
          · exact h3.symm
          · exact h4.symm

/-- The successful results of `unsubscribe` either end in `cleanupOldEvents`
(head index) or emit nothing and keep the backlog values and length. -/
theorem unsubscribe_shape {T : Type} (d : Distributor T) (p : Int)
    (d2 : Distributor T) (cbs : List (Callback T))
    (h : unsubscribe d p = some (d2, cbs)) :
    (∃ d1 : Distributor T, d1.buf.length = d.buf.length ∧
      d1.basePosition = d.basePosition ∧
      d1.buf.map (fun e => e.value) = d.buf.map (fun e => e.value) ∧
      d2 = (cleanupOldEvents d1).1 ∧ cbs = (cleanupOldEvents d1).2) ∨
    (d2.buf.length = d.buf.length ∧
      d2.buf.map (fun e => e.value) = d.buf.map (fun e => e.value) ∧ cbs = []) := by
  simp only [unsubscribe] at h
  by_cases hin : p - d.basePosition < (d.buf.length : Int)
  · rw [if_pos hin] at h
    by_cases hneg : p - d.basePosition < 0
    · rw [if_pos hneg] at h
      cases h
    · rw [if_neg hneg] at h
      by_cases h0 : p - d.basePosition = 0
      · rw [if_pos h0] at h
        have h2 := Option.some.inj h
        refine Or.inl ⟨{ d with buf := addRef (-1) (p - d.basePosition).toNat d.buf }, ?_, rfl, ?_, ?_, ?_⟩
        · simp [addRef_length]
        · simp only
          rw [addRef_map_value]
        · exact (congrArg Prod.fst h2).symm
        · exact (congrArg Prod.snd h2).symm
      · rw [if_neg h0] at h
        simp only [Option.some.injEq, Prod.mk.injEq] at h
        obtain ⟨h1, h2⟩ := h
        refine Or.inr ⟨?_, ?_, h2.symm⟩
        · rw [← h1]
          simp [addRef_length]
        · rw [← h1]
          simp only
          rw [addRef_map_value]
  · rw [if_neg hin] at h
    simp only [Option.some.injEq, Prod.mk.injEq] at h
    obtain ⟨h1, h2⟩ := h
    exact Or.inr ⟨by rw [← h1], by rw [← h1], h2.symm⟩

/-- The trim pass fires `onBufsizeChange` iff the backlog length
changed, and the reported value is the resulting length. -/
theorem cleanup_bufsize {T : Type} (d : Distributor T) :
    bufsizeValues (cleanupOldEvents d).2 =
      if (cleanupOldEvents d).1.buf.length = d.buf.length then []
      else [(cleanupOldEvents d).1.buf.length] := by
  obtain ⟨k, hk, -, -, h1, h2⟩ := cleanup_char d
  rw [h1, h2]
  simp only
  by_cases hk0 : k = 0
  · subst hk0
    simp [List.drop_zero, List.take_zero, bufsizeValues]
  · rw [if_neg hk0]
    rw [bufsizeValues_append, bufsizeValues_fc_map]
    have hlen : (d.buf.drop k).length = d.buf.length - k := List.length_drop k d.buf
    rw [if_neg (by omega)]
    rfl

/-- Extract the two components of a `some`-returning `applyAct` equation. -/
theorem pair_of_some {A B : Type} {a x : A} {b y : B}
    (h : some (a, b) = some (x, y)) : a = x ∧ b = y := by
  injection h with h2
  injection h2 with h3 h4
  exact ⟨h3, h4⟩

/-- C8: every `onBufsizeChange` value emitted by a public operation equals
the backlog length at the moment it fires (the resulting length — the
firing is always the last thing the operation does to the backlog), the
event fires exactly when the operation changed the backlog length (after a
Submit that appends, after a trim that drops), and an operation that leaves
the length unchanged — the no-audience Submit, a trim that drops nothing,
Subscribe, WaitChan — emits none. -/
theorem bufsize_tracks_backlog {T : Type} (s : Sys T) (a : DistOp T) (s2 : Sys T)
    (cbs : List (Callback T)) (h : applyAct s a = some (s2, cbs)) :
    bufsizeValues cbs =
      if s2.dist.buf.length = s.dist.buf.length then [] else [s2.dist.buf.length] := by
  cases a with
  | submit v =>
      simp only [applyAct] at h
      obtain ⟨h1, h2⟩ := pair_of_some h
      rw [← h1, ← h2]
      simp only [Distributor.Submit]
      by_cases hg : s.dist.buf.length = 0 ∧ s.dist.nextRefcount = 0
      · rw [if_pos hg]
        simp [bufsizeValues, List.filterMap]
      · rw [if_neg hg]
        simp only [List.length_append, List.length_cons, List.length_nil]
        rw [if_neg (by omega)]
        simp [bufsizeValues, List.filterMap]
  | subscribe =>
      simp only [applyAct] at h
      obtain ⟨h1, h2⟩ := pair_of_some h
      rw [← h1, ← h2]
      simp [bufsizeValues, Distributor.Subscribe]
  | waitChanOp i =>
      simp only [applyAct] at h
      cases hr : s.readers.get? i with
      | none => rw [hr] at h; cases h
      | some r =>
          rw [hr] at h
          dsimp only at h
          by_cases ha : r.active
          · rw [if_pos ha] at h
            obtain ⟨h1, h2⟩ := pair_of_some h
            rw [← h1, ← h2]
            rw [if_pos ?_]
            · rfl
            · simp only
              rw [(waitChan_fields s.dist r.position).1]
          · rw [if_neg ha] at h
            cases h
  | consumeOp i =>
      simp only [applyAct] at h
      cases hr : s.readers.get? i with
      | none => rw [hr] at h; cases h
      | some r =>
          rw [hr] at h
          dsimp only at h
          by_cases ha : r.active
          · rw [if_pos ha] at h
            cases hc : consume s.dist r.position with
            | none => rw [hc] at h; cases h
            | some res =>
                obtain ⟨v, p2, d2, cbs2⟩ := res
                rw [hc] at h
                dsimp only at h
                obtain ⟨h1, h2⟩ := pair_of_some h
                rw [← h1, ← h2]
                obtain ⟨d1, hlen, -, -, hd2, hcbs⟩ :=
                  consume_shape s.dist r.position v p2 d2 cbs2 hc
                rw [hcbs, hd2]
                simp only
                rw [cleanup_bufsize d1, hlen]
          · rw [if_neg ha] at h
            cases h
  | unsubscribeOp i =>
      simp only [applyAct] at h
      cases hr : s.readers.get? i with
      | none => rw [hr] at h; cases h
      | some r =>
          rw [hr] at h
          dsimp only at h
          by_cases ha : r.active
          · rw [if_pos ha] at h
            cases hc : unsubscribe s.dist r.position with
            | none => rw [hc] at h; cases h
            | some res =>
                obtain ⟨d2, cbs2⟩ := res
                rw [hc] at h
                dsimp only at h
                obtain ⟨h1, h2⟩ := pair_of_some h
                rw [← h1, ← h2]
                rcases unsubscribe_shape s.dist r.position d2 cbs2 hc with
                  ⟨d1, hlen, -, -, hd2, hcbs⟩ | ⟨hlen, -, hcbs⟩
                · rw [hcbs, hd2]
                  simp only
                  rw [cleanup_bufsize d1, hlen]
                · rw [hcbs]
                  simp only
                  rw [if_pos hlen]
                  rfl
          · rw [if_neg ha] at h
            cases h



/-- Witness for `bufsize_tracks_backlog`: a Submit that appends reports the
new length 1. -/
theorem bufsize_tracks_backlog_w :
    applyAct oneReaderSys (DistOp.submit 7) =
      some (oneReaderSysAfter, [Callback.onSubmit 7, Callback.onBufsizeChange 1]) ∧
    bufsizeValues [Callback.onSubmit 7, Callback.onBufsizeChange 1] =
      if oneReaderSysAfter.dist.buf.length = oneReaderSys.dist.buf.length then []
      else [oneReaderSysAfter.dist.buf.length] :=
  ⟨by decide, bufsize_tracks_backlog oneReaderSys (DistOp.submit 7) oneReaderSysAfter
    [Callback.onSubmit 7, Callback.onBufsizeChange 1] (by decide)⟩

/-- Setting an in-range index makes `get?` return the new element. -/
theorem get_set_self {A : Type} (l : List A) (i : Nat) (x : A) (h : i < l.length) :
    (l.set i x).get? i = some x := by
  rw [List.get?_set, if_pos rfl, List.get?_eq_get h]
  rfl

/-- C9: once `Unsubscribe` has returned on a reader, every further operation
through that reader — `Consume`, `WaitChan`, a second `Unsubscribe` — is a
panic (`none`): the reader's distributor pointer is nil.  In the model a
panicking step returns `none` and by construction changes no state, matching
Go, where the nil dereference fires before any write to the shared state. -/
theorem retired_reader_ops_panic {T : Type} (s : Sys T) (i : Nat) (s2 : Sys T)
    (cbs : List (Callback T))
    (h : applyAct s (DistOp.unsubscribeOp i) = some (s2, cbs)) :
    applyAct s2 (DistOp.consumeOp i) = none ∧
    applyAct s2 (DistOp.waitChanOp i) = none ∧
    applyAct s2 (DistOp.unsubscribeOp i) = none := by
  simp only [applyAct] at h
  cases hr : s.readers.get? i with
  | none => rw [hr] at h; cases h
  | some r =>
      rw [hr] at h
      dsimp only at h
      by_cases ha : r.active
      · rw [if_pos ha] at h
        cases hu : unsubscribe s.dist r.position with
        | none => rw [hu] at h; cases h
        | some res =>
            obtain ⟨d2, cbs2⟩ := res
            rw [hu] at h
            dsimp only at h
            obtain ⟨h1, h2⟩ := pair_of_some h
            have hlen : i < s.readers.length := (List.get?_eq_some.mp hr).1
            have hgs : s2.readers.get? i = some { active := false, position := r.position } := by
              rw [← h1]
              exact get_set_self s.readers i _ hlen
            have hgs2 : s2.readers[i]? = some { active := false, position := r.position } := by
              rw [← List.get?_eq_getElem?]
              exact hgs
            refine ⟨?_, ?_, ?_⟩ <;> simp [applyAct, hgs2]
      · rw [if_neg ha] at h
        cases h

/-- Witness for `retired_reader_ops_panic` on `oneReaderSys`. -/
theorem retired_reader_ops_panic_w :
    applyAct oneReaderSys (DistOp.unsubscribeOp 0) =
      some ({ dist := { basePosition := 0, buf := [], nextRefcount := 0,
                        waiters := none, nextChanId := 0, closedChans := [] },
              readers := [{ active := false, position := 0 }] }, []) ∧
    (applyAct ({ dist := { basePosition := 0, buf := [], nextRefcount := 0,
                           waiters := none, nextChanId := 0, closedChans := [] },
                 readers := [{ active := false, position := 0 }] } : Sys Nat)
        (DistOp.consumeOp 0) = none ∧
      applyAct ({ dist := { basePosition := 0, buf := [], nextRefcount := 0,
                            waiters := none, nextChanId := 0, closedChans := [] },
                  readers := [{ active := false, position := 0 }] } : Sys Nat)
        (DistOp.waitChanOp 0) = none ∧
      applyAct ({ dist := { basePosition := 0, buf := [], nextRefcount := 0,
                            waiters := none, nextChanId := 0, closedChans := [] },
                  readers := [{ active := false, position := 0 }] } : Sys Nat)
        (DistOp.unsubscribeOp 0) = none) :=
  ⟨by decide, retired_reader_ops_panic oneReaderSys 0 _ [] (by decide)⟩


/-- C7: two unready readers share one wakeup handle; one Submit signals it
for both at once and tears it down; a wait that begins after the Submit gets
a fresh handle the old notification never signals.  The two freshness
hypotheses (allocated ids bound `nextChanId`, the stored handle is unused)
hold in every reachable state under the allocation model. -/
theorem broadcast_wakeup {T : Type} (d : Distributor T) (p1 p2 p3 : Int) (v : T)
    (h1 : d.basePosition + (d.buf.length : Int) ≤ p1)
    (h2 : d.basePosition + (d.buf.length : Int) ≤ p2)
    (h3 : d.basePosition + (d.buf.length : Int) + 1 ≤ p3)
    (hguard : ¬(d.buf.length = 0 ∧ d.nextRefcount = 0))
    (hfreshC : ∀ c ∈ d.closedChans, c < d.nextChanId)
    (hfreshW : ∀ j, d.waiters = some j → j < d.nextChanId ∧ j ∉ d.closedChans) :
    BroadcastSpec d p1 p2 p3 v := by
  unfold BroadcastSpec
  have hc1 : ¬(p1 - d.basePosition < (d.buf.length : Int)) := by omega
  have hc2 : ¬(p2 - d.basePosition < (d.buf.length : Int)) := by omega
  cases hw : d.waiters with
  | some j =>
      obtain ⟨hjlt, hjnm⟩ := hfreshW j hw
      have hsub : (d.Submit v).1 = { d with buf := d.buf ++ [{ refcount := d.nextRefcount, value := v }], nextRefcount := 0, waiters := none, closedChans := j :: d.closedChans } := by
        simp only [Distributor.Submit]
        rw [if_neg hguard, hw]
      refine ⟨j, d, d, ?_, ?_, ?_, ?_, ?_, ?_⟩
      · unfold waitChan
        rw [if_neg hc1, hw]
      · unfold waitChan
        rw [if_neg hc2, hw]
      · simp only [WaitHandle.isClosed]
        simpa using hjnm
      · rw [hsub]
        simp [WaitHandle.isClosed]
      · rw [hsub]
      · refine ⟨d.nextChanId, { d with buf := d.buf ++ [{ refcount := d.nextRefcount, value := v }], nextRefcount := 0, waiters := some d.nextChanId, nextChanId := d.nextChanId + 1, closedChans := j :: d.closedChans }, ?_, ?_, ?_⟩
        · rw [hsub]
          unfold waitChan
          rw [if_neg (by simp only [List.length_append, List.length_cons, List.length_nil]; push_cast; omega)]
        · omega
        · have hnm : d.nextChanId ∉ j :: d.closedChans := by
            intro hmem
            rcases List.mem_cons.mp hmem with hx | hx
            · omega
            · exact absurd (hfreshC _ hx) (by omega)
          simp only [WaitHandle.isClosed]
          simpa using hnm
  | none =>
      have hd1 : waitChan d p1 = (WaitHandle.chanId d.nextChanId, { d with waiters := some d.nextChanId, nextChanId := d.nextChanId + 1 }) := by
        unfold waitChan
        rw [if_neg hc1, hw]
      have hsub : (({ d with waiters := some d.nextChanId, nextChanId := d.nextChanId + 1 } : Distributor T).Submit v).1 = { d with buf := d.buf ++ [{ refcount := d.nextRefcount, value := v }], nextRefcount := 0, waiters := none, nextChanId := d.nextChanId + 1, closedChans := d.nextChanId :: d.closedChans } := by
        simp only [Distributor.Submit]
        rw [if_neg hguard]
      refine ⟨d.nextChanId,
        { d with waiters := some d.nextChanId, nextChanId := d.nextChanId + 1 },
        { d with waiters := some d.nextChanId, nextChanId := d.nextChanId + 1 },
        hd1, ?_, ?_, ?_, ?_, ?_⟩
      · unfold waitChan
        rw [if_neg hc2]
      · have hnm : d.nextChanId ∉ d.closedChans := fun hmem => absurd (hfreshC _ hmem) (by omega)
        simp only [WaitHandle.isClosed]
        simpa using hnm
      · rw [hsub]
        simp [WaitHandle.isClosed]
      · rw [hsub]
      · refine ⟨d.nextChanId + 1, { d with buf := d.buf ++ [{ refcount := d.nextRefcount, value := v }], nextRefcount := 0, waiters := some (d.nextChanId + 1), nextChanId := d.nextChanId + 2, closedChans := d.nextChanId :: d.closedChans }, ?_, ?_, ?_⟩
        · rw [hsub]
          unfold waitChan
          rw [if_neg (by simp only [List.length_append, List.length_cons, List.length_nil]; push_cast; omega)]
        · omega
        · have hnm : d.nextChanId + 1 ∉ d.nextChanId :: d.closedChans := by
            intro hmem
            rcases List.mem_cons.mp hmem with hx | hx
            · omega
            · exact absurd (hfreshC _ hx) (by omega)
          simp only [WaitHandle.isClosed]
          simpa using hnm

/-- Witness for `broadcast_wakeup`: the distributor of `oneReaderSys` (one
pending subscriber, empty backlog), both waits at position 0, the post-Submit
wait at position 1. -/
theorem broadcast_wakeup_w :
    (oneReaderSys.dist.basePosition + (oneReaderSys.dist.buf.length : Int) ≤ 0) ∧
    (oneReaderSys.dist.basePosition + (oneReaderSys.dist.buf.length : Int) + 1 ≤ 1) ∧
    ¬(oneReaderSys.dist.buf.length = 0 ∧ oneReaderSys.dist.nextRefcount = 0) ∧
    (∀ c ∈ oneReaderSys.dist.closedChans, c < oneReaderSys.dist.nextChanId) ∧
    BroadcastSpec oneReaderSys.dist 0 0 1 (9 : Nat) :=
  ⟨by decide, by decide, by decide, by simp [oneReaderSys],
    broadcast_wakeup oneReaderSys.dist 0 0 1 9 (by decide) (by decide) (by decide)
      (by decide) (by simp [oneReaderSys]) (fun j hx => Option.noConfusion hx)⟩

/-- The callback trace of `cleanupOldEvents` accounts exactly for the
dropped slot values, and contains no `onSubmit` events. -/
theorem cleanup_trace {T : Type} (d : Distributor T) :
    fcValues (cleanupOldEvents d).2 ++ (cleanupOldEvents d).1.buf.map (fun e => e.value) =
      d.buf.map (fun e => e.value) ∧
    submitValues (cleanupOldEvents d).2 = [] := by
  obtain ⟨k, hk, -, -, h1, h2⟩ := cleanup_char d
  rw [h1, h2]
  constructor
  · rw [fcValues_append, fcValues_fc_map]
    dsimp only
    by_cases hk0 : k = 0
    · subst hk0
      simp [fcValues]
    · rw [if_neg hk0]
      have hbz : fcValues [Callback.onBufsizeChange (d.buf.drop k).length] = ([] : List T) := rfl
      rw [hbz, List.append_nil, ← List.map_append, List.take_append_drop]
  · rw [submitValues_append, submitValues_fc_map]
    by_cases hk0 : k = 0
    · subst hk0
      simp [submitValues]
    · rw [if_neg hk0]
      rfl

/-- One step of the exactly-once accounting: the `onFullyConsumed` values a
step emits, followed by the values still retained, equal the values retained
before the step followed by the values the step submitted. -/
theorem step_trace {T : Type} (s : Sys T) (a : DistOp T) (s2 : Sys T)
    (cbs : List (Callback T)) (h : applyAct s a = some (s2, cbs)) :
    fcValues cbs ++ s2.dist.buf.map (fun e => e.value) =
      s.dist.buf.map (fun e => e.value) ++ submitValues cbs := by
  cases a with
  | submit v =>
      simp only [applyAct] at h
      obtain ⟨h1, h2⟩ := pair_of_some h
      rw [← h1, ← h2]
      simp only [Distributor.Submit]
      by_cases hg : s.dist.buf.length = 0 ∧ s.dist.nextRefcount = 0
      · rw [if_pos hg]
        dsimp only
        rw [List.length_eq_zero.mp hg.1]
        rfl
      · rw [if_neg hg]
        dsimp only
        simp [fcValues, submitValues, List.filterMap]
  | subscribe =>
      simp only [applyAct] at h
      obtain ⟨h1, h2⟩ := pair_of_some h
      rw [← h1, ← h2]
      simp [fcValues, submitValues, Distributor.Subscribe]
  | waitChanOp i =>
      simp only [applyAct] at h
      cases hr : s.readers.get? i with
      | none => rw [hr] at h; cases h
      | some r =>
          rw [hr] at h
          dsimp only at h
          by_cases ha : r.active
          · rw [if_pos ha] at h
            obtain ⟨h1, h2⟩ := pair_of_some h
            rw [← h1, ← h2]
            dsimp only
            rw [(waitChan_fields s.dist r.position).1]
            simp [fcValues, submitValues]
          · rw [if_neg ha] at h
            cases h
  | consumeOp i =>
      simp only [applyAct] at h
      cases hr : s.readers.get? i with
      | none => rw [hr] at h; cases h
      | some r =>
          rw [hr] at h
          dsimp only at h
          by_cases ha : r.active
          · rw [if_pos ha] at h
            cases hc : consume s.dist r.position with
            | none => rw [hc] at h; cases h
            | some res =>
                obtain ⟨v, p2, d2, cbs2⟩ := res
                rw [hc] at h
                dsimp only at h
                obtain ⟨h1, h2⟩ := pair_of_some h
                rw [← h1, ← h2]
                obtain ⟨d1, -, -, hmap, hd2, hcbs⟩ :=
                  consume_shape s.dist r.position v p2 d2 cbs2 hc
                rw [hcbs, hd2]
                dsimp only
                rw [(cleanup_trace d1).2, List.append_nil, (cleanup_trace d1).1, hmap]
          · rw [if_neg ha] at h
            cases h
  | unsubscribeOp i =>
      simp only [applyAct] at h
      cases hr : s.readers.get? i with
      | none => rw [hr] at h; cases h
      | some r =>
          rw [hr] at h
          dsimp only at h
          by_cases ha : r.active
          · rw [if_pos ha] at h
            cases hc : unsubscribe s.dist r.position with
            | none => rw [hc] at h; cases h
            | some res =>
                obtain ⟨d2, cbs2⟩ := res
                rw [hc] at h
                dsimp only at h
                obtain ⟨h1, h2⟩ := pair_of_some h
                rw [← h1, ← h2]
                dsimp only
                rcases unsubscribe_shape s.dist r.position d2 cbs2 hc with
                  ⟨d1, -, -, hmap, hd2, hcbs⟩ | ⟨-, hmap, hcbs⟩
                · rw [hcbs, hd2]
                  rw [(cleanup_trace d1).2, List.append_nil, (cleanup_trace d1).1, hmap]
                · rw [hcbs, hmap]
                  simp [fcValues, submitValues]
          · rw [if_neg ha] at h
            cases h

/-- Running any list of operations: emitted `onFullyConsumed` values plus
the retained backlog equal the starting backlog plus submitted values. -/
theorem run_trace {T : Type} (acts : List (DistOp T)) (s s2 : Sys T)
    (tr : List (Callback T)) (h : runActs s acts = some (s2, tr)) :
    fcValues tr ++ s2.dist.buf.map (fun e => e.value) =
      s.dist.buf.map (fun e => e.value) ++ submitValues tr := by
  induction acts generalizing s s2 tr with
  | nil =>
      simp only [runActs] at h
      obtain ⟨h1, h2⟩ := pair_of_some h
      rw [← h1, ← h2]
      simp [fcValues, submitValues]
  | cons a rest ih =>
      simp only [runActs] at h
      cases ha : applyAct s a with
      | none => rw [ha] at h; cases h
      | some res =>
          obtain ⟨s1, cbs⟩ := res
          rw [ha] at h
          dsimp only at h
          cases hrest : runActs s1 rest with
          | none => rw [hrest] at h; cases h
          | some res2 =>
              obtain ⟨s3, cbs2⟩ := res2
              rw [hrest] at h
              dsimp only at h
              obtain ⟨h1, h2⟩ := pair_of_some h
              rw [← h1, ← h2]
              rw [fcValues_append, submitValues_append]
              have e1 := step_trace s a s1 cbs ha
              have e2 := ih s1 s3 cbs2 hrest
              rw [List.append_assoc, e2, ← List.append_assoc, e1, List.append_assoc]

/-- C2: over the whole lifetime, the sequence of `onFullyConsumed` values
followed by the values still retained in the backlog equals the sequence of
submitted values (`onSubmit` fires exactly once per Submit, in order).  So
every submitted event is reported fully-consumed exactly once — either
synchronously inside its Submit or later when its slot leaves the front of
the backlog — no event is reported twice, and none leaves the backlog
without the callback firing. -/
theorem fullyConsumed_exactly_once {T : Type} (acts : List (DistOp T)) (s2 : Sys T)
    (tr : List (Callback T)) (h : runActs (initSys T) acts = some (s2, tr)) :
    fcValues tr ++ s2.dist.buf.map (fun e => e.value) = submitValues tr := by
  have hrt := run_trace acts (initSys T) s2 tr h
  simpa [initSys, Distributor.new] using hrt

/-- Witness for `fullyConsumed_exactly_once`: subscribe, submit, consume. -/
theorem fullyConsumed_exactly_once_w :
    runActs (initSys Nat) [DistOp.subscribe, DistOp.submit 3, DistOp.consumeOp 0] =
      some ({ dist := { basePosition := 1, buf := [], nextRefcount := 1,
                        waiters := none, nextChanId := 0, closedChans := [] },
              readers := [{ active := true, position := 1 }] },
        [Callback.onSubmit 3, Callback.onBufsizeChange 1,
          Callback.onFullyConsumed 3, Callback.onBufsizeChange 0]) ∧
    fcValues [Callback.onSubmit 3, Callback.onBufsizeChange 1,
        Callback.onFullyConsumed 3, Callback.onBufsizeChange 0] ++
      ([] : List (EventInfo Nat)).map (fun e => e.value) =
      submitValues [Callback.onSubmit 3, Callback.onBufsizeChange 1,
        Callback.onFullyConsumed 3, Callback.onBufsizeChange 0] :=
  ⟨by decide, fullyConsumed_exactly_once [DistOp.subscribe, DistOp.submit 3, DistOp.consumeOp 0]
    { dist := { basePosition := 1, buf := [], nextRefcount := 1,
                waiters := none, nextChanId := 0, closedChans := [] },
      readers := [{ active := true, position := 1 }] }
    [Callback.onSubmit 3, Callback.onBufsizeChange 1,
      Callback.onFullyConsumed 3, Callback.onBufsizeChange 0] (by decide)⟩





theorem readersAt_append (rs : List RState) (p q : Int) :
    readersAt (rs ++ [{ active := true, position := p }]) q =
      readersAt rs q + (if p = q then 1 else 0) := by
  unfold readersAt
  rw [List.countP_append]
  simp [List.countP_cons]

theorem readersAt_zero_of_ub (rs : List RState) (P q : Int)
    (hub : ∀ r ∈ rs, r.active = true → r.position ≤ P) (hq : P < q) :
    readersAt rs q = 0 := by
  unfold readersAt
  rw [List.countP_eq_zero]
  intro r hr
  simp only [Bool.and_eq_true, decide_eq_true_eq, not_and]
  intro hact hpos
  have := hub r hr hact
  omega

theorem readersAt_pos (rs : List RState) (q : Int) (r : RState) (hr : r ∈ rs)
    (hact : r.active = true) (hpos : r.position = q) : 0 < readersAt rs q := by
  unfold readersAt
  rw [List.countP_pos]
  exact ⟨r, hr, by simp [hact, hpos]⟩

theorem countP_set_eq {A : Type} (l : List A) (i : Nat) (a x : A) (pr : A → Bool)
    (h : l.get? i = some a) :
    (l.set i x).countP pr + (if pr a then 1 else 0) =
      l.countP pr + (if pr x then 1 else 0) := by
  induction l generalizing i with
  | nil => simp [List.get?] at h
  | cons b rest ih =>
      cases i with
      | zero =>
          simp only [List.get?] at h
          cases h
          simp only [List.set, List.countP_cons]
          omega
      | succ n =>
          simp only [List.get?] at h
          simp only [List.set, List.countP_cons]
          have := ih n h
          omega

theorem readersAt_set_move (rs : List RState) (i : Nat) (p p2 q : Int)
    (h : rs.get? i = some { active := true, position := p }) :
    readersAt (rs.set i { active := true, position := p2 }) q + (if p = q then 1 else 0) =
      readersAt rs q + (if p2 = q then 1 else 0) := by
  have hx := countP_set_eq rs i { active := true, position := p }
    { active := true, position := p2 } (fun r => r.active && decide (r.position = q)) h
  simpa [readersAt] using hx

theorem readersAt_set_retire (rs : List RState) (i : Nat) (p q : Int)
    (h : rs.get? i = some { active := true, position := p }) :
    readersAt (rs.set i { active := false, position := p }) q + (if p = q then 1 else 0) =
      readersAt rs q := by
  have hx := countP_set_eq rs i { active := true, position := p }
    { active := false, position := p } (fun r => r.active && decide (r.position = q)) h
  simpa [readersAt] using hx

/-- The predicate `DInv` depends only on the backlog, base position and `nextRefcount`. -/
theorem DInv_congr {T : Type} (d d2 : Distributor T) (rs : List RState)
    (hb : d2.buf = d.buf) (hp : d2.basePosition = d.basePosition)
    (hn : d2.nextRefcount = d.nextRefcount) (h : DInv d rs) : DInv d2 rs := by
  obtain ⟨h1, h2, h3⟩ := h
  refine ⟨?_, ?_, ?_⟩
  · intro i e he
    rw [hb] at he
    rw [hp]
    exact h1 i e he
  · rw [hb, hp, hn]
    exact h2
  · intro r hr hact
    rw [hb, hp]
    exact h3 r hr hact

/-- The trim pass preserves the counting invariant and (re)establishes
the nonzero-head property: it drops exactly the leading zero-refcount slots,
and a zero-refcount slot is claimed by no reader, so no live reader is left
behind the new base position. -/
theorem cleanup_DInv {T : Type} (d : Distributor T) (rs : List RState) (h : DInv d rs) :
    DInv (cleanupOldEvents d).1 rs ∧ HeadNZ (cleanupOldEvents d).1 := by
  obtain ⟨hslot, htail, hrange⟩ := h
  obtain ⟨k, hk, hzero, hstop, h1, -⟩ := cleanup_char d
  have hbuf : (cleanupOldEvents d).1.buf = d.buf.drop k := by rw [h1]
  have hbase : (cleanupOldEvents d).1.basePosition = d.basePosition + (k : Int) := by rw [h1]
  have hnext : (cleanupOldEvents d).1.nextRefcount = d.nextRefcount := by rw [h1]
  have hnolow : ∀ j : Nat, j < k → readersAt rs (d.basePosition + (j : Int)) = 0 := by
    intro j hj
    have hjlen : j < d.buf.length := lt_of_lt_of_le hj hk
    obtain ⟨e, he⟩ : ∃ e, d.buf.get? j = some e := by
      cases hg : d.buf.get? j with
      | none =>
          rw [List.get?_eq_none] at hg
          omega
      | some e => exact ⟨e, rfl⟩
    have h0 := hzero j e hj he
    have hcnt := hslot j e he
    omega
  have hrange2 : ∀ r ∈ rs, r.active = true → d.basePosition + (k : Int) ≤ r.position := by
    intro r hr hact
    by_contra hlt
    push_neg at hlt
    have hge := (hrange r hr hact).1
    have hjk : (r.position - d.basePosition).toNat < k := by omega
    have hpos := readersAt_pos rs (d.basePosition + ((r.position - d.basePosition).toNat : Int))
      r hr hact (by omega)
    have := hnolow (r.position - d.basePosition).toNat hjk
    omega
  refine ⟨⟨?_, ?_, ?_⟩, ?_⟩
  · intro i e he
    rw [hbuf, List.get?_drop] at he
    rw [hbase]
    have := hslot (k + i) e he
    rw [this]
    congr 2
    push_cast
    ring
  · rw [hbuf, hbase, hnext, htail]
    congr 2
    rw [List.length_drop]
    omega
  · intro r hr hact
    rw [hbuf, hbase]
    refine ⟨hrange2 r hr hact, ?_⟩
    have := (hrange r hr hact).2
    rw [List.length_drop]
    omega
  · intro e he
    rw [hbuf, List.get?_drop, Nat.add_zero] at he
    exact hstop e he

/-- Submitting preserves the invariant: in the no-audience path nothing
changes; otherwise the appended slot's refcount `nextRefcount` equals the
number of tail readers, which become exactly the readers of the new slot,
and nobody sits past the new tail. -/
theorem submit_DInv {T : Type} (d : Distributor T) (rs : List RState) (v : T)
    (h : DInv d rs) (hH : HeadNZ d) :
    DInv (d.Submit v).1 rs ∧ HeadNZ (d.Submit v).1 := by
  obtain ⟨hslot, htail, hrange⟩ := h
  by_cases hg : d.buf.length = 0 ∧ d.nextRefcount = 0
  · have hid : (d.Submit v).1 = d := by
      simp [Distributor.Submit, hg]
    rw [hid]
    exact ⟨⟨hslot, htail, hrange⟩, hH⟩
  · have hbuf : (d.Submit v).1.buf = d.buf ++ [{ refcount := d.nextRefcount, value := v }] := by
      simp only [Distributor.Submit]
      rw [if_neg hg]
    have hbase : (d.Submit v).1.basePosition = d.basePosition := by
      simp only [Distributor.Submit]
      rw [if_neg hg]
    have hnext : (d.Submit v).1.nextRefcount = 0 := by
      simp only [Distributor.Submit]
      rw [if_neg hg]
    refine ⟨⟨?_, ?_, ?_⟩, ?_⟩
    · intro i e he
      rw [hbuf] at he
      rw [hbase]
      obtain ⟨hi, -⟩ := List.get?_eq_some.mp he
      rw [List.length_append, List.length_cons, List.length_nil] at hi
      by_cases hilt : i < d.buf.length
      · rw [List.get?_append hilt] at he
        exact hslot i e he
      · have hieq : i = d.buf.length := by omega
        subst hieq
        rw [List.get?_concat_length] at he
        cases Option.some.inj he
        exact htail
    · rw [hbuf, hbase, hnext, List.length_append, List.length_cons, List.length_nil]
      have hz : readersAt rs (d.basePosition + ((d.buf.length + 1 : Nat) : Int)) = 0 := by
        refine readersAt_zero_of_ub rs (d.basePosition + (d.buf.length : Int)) _ ?_ (by push_cast; omega)
        intro r hr hact
        exact (hrange r hr hact).2
      rw [hz]
      rfl
    · intro r hr hact
      rw [hbuf, hbase, List.length_append, List.length_cons, List.length_nil]
      refine ⟨(hrange r hr hact).1, ?_⟩
      have := (hrange r hr hact).2
      push_cast
      omega
    · intro e he
      rw [hbuf] at he
      by_cases hb : d.buf.length = 0
      · rw [List.length_eq_zero.mp hb] at he
        simp only [List.nil_append, List.get?] at he
        cases Option.some.inj he
        simp only
        intro hzero
        exact hg ⟨hb, hzero⟩
      · rw [List.get?_append (by omega)] at he
        exact hH e he

/-- Subscribing preserves the invariant: the new reader sits at the tail and
is accounted for by the incremented `nextRefcount`. -/
theorem subscribe_DInv {T : Type} (d : Distributor T) (rs : List RState)
    (h : DInv d rs) (hH : HeadNZ d) :
    DInv d.Subscribe.1 (rs ++ [{ active := true, position := d.Subscribe.2 }]) ∧
      HeadNZ d.Subscribe.1 := by
  obtain ⟨hslot, htail, hrange⟩ := h
  refine ⟨⟨?_, ?_, ?_⟩, ?_⟩
  · intro i e he
    have he2 : d.buf.get? i = some e := he
    obtain ⟨hi, -⟩ := List.get?_eq_some.mp he2
    show e.refcount =
      (readersAt (rs ++ [{ active := true, position := d.basePosition + (d.buf.length : Int) }])
        (d.basePosition + (i : Int)) : Int)
    rw [readersAt_append, if_neg (by push_cast; omega)]
    simpa using hslot i e he2
  · show d.nextRefcount + 1 =
      (readersAt (rs ++ [{ active := true, position := d.basePosition + (d.buf.length : Int) }])
        (d.basePosition + (d.buf.length : Int)) : Int)
    rw [readersAt_append, if_pos rfl]
    push_cast
    rw [htail]
  · intro r hr hact
    rcases List.mem_append.mp hr with hold | hnew
    · exact hrange r hold hact
    · have hreq : r = { active := true, position := d.basePosition + (d.buf.length : Int) } := by
        simpa using hnew
      subst hreq
      constructor
      · show d.basePosition ≤ d.basePosition + (d.buf.length : Int)
        omega
      · show d.basePosition + (d.buf.length : Int) ≤ d.basePosition + (d.buf.length : Int)
        omega
  · intro e he
    exact hH e he

/-- Full inversion of a successful `consume`: the position was in range, the
returned position is one further, and the state passed to the trailing
`cleanupOldEvents` is the input with the consumed slot decremented and the
claim moved forward. -/
theorem consume_inversion {T : Type} (d : Distributor T) (p : Int) (v : T) (p2 : Int)
    (d2 : Distributor T) (cbs : List (Callback T))
    (h : consume d p = some (v, p2, d2, cbs)) :
    0 ≤ p - d.basePosition ∧ (p - d.basePosition) < (d.buf.length : Int) ∧ p2 = p + 1 ∧
    ∃ e, d.buf.get? (p - d.basePosition).toNat = some e ∧ v = e.value ∧
    ∃ d1 : Distributor T,
      d2 = (cleanupOldEvents d1).1 ∧ cbs = (cleanupOldEvents d1).2 ∧
      d1.basePosition = d.basePosition ∧
      (if (p - d.basePosition).toNat + 1 < d.buf.length then
        d1.nextRefcount = d.nextRefcount ∧
        d1.buf = addRef 1 ((p - d.basePosition).toNat + 1)
          (addRef (-1) (p - d.basePosition).toNat d.buf)
      else
        d1.nextRefcount = d.nextRefcount + 1 ∧
        d1.buf = addRef (-1) (p - d.basePosition).toNat d.buf) := by
  simp only [consume] at h
  by_cases hc : (p - d.basePosition < 0 ∨ (d.buf.length : Int) ≤ p - d.basePosition)
  · rw [if_pos hc] at h
    cases h
  · rw [if_neg hc] at h
    push_neg at hc
    refine ⟨hc.1, hc.2, ?_⟩
    cases hget : d.buf.get? (p - d.basePosition).toNat with
    | none =>
        rw [hget] at h
        cases h
    | some e =>
        rw [hget] at h
        by_cases hbr : (p - d.basePosition).toNat + 1 < d.buf.length
        · rw [if_pos hbr] at h
          simp only [Option.some.injEq, Prod.mk.injEq] at h
          obtain ⟨hv, hp2, h3, h4⟩ := h
          refine ⟨hp2.symm, e, rfl, hv.symm, _, h3.symm, h4.symm, rfl, ?_⟩
          rw [if_pos hbr]
          exact ⟨rfl, rfl⟩
        · rw [if_neg hbr] at h
          simp only [Option.some.injEq, Prod.mk.injEq] at h
          obtain ⟨hv, hp2, h3, h4⟩ := h
          refine ⟨hp2.symm, e, rfl, hv.symm, _, h3.symm, h4.symm, rfl, ?_⟩
          rw [if_neg hbr]
          exact ⟨rfl, rfl⟩

/-- Consuming preserves the whole-system invariant: the consumed slot loses
the consuming reader, the next slot (or the tail count) gains it, and the
trailing trim re-establishes the nonzero head. -/
theorem consume_SysInv {T : Type} (s : Sys T) (i : Nat) (r : RState) (v : T) (p2 : Int)
    (d2 : Distributor T) (cbs : List (Callback T))
    (hr : s.readers.get? i = some r) (hact : r.active = true)
    (hc : consume s.dist r.position = some (v, p2, d2, cbs))
    (hinv : SysInv s) :
    SysInv { dist := d2, readers := s.readers.set i { active := true, position := p2 } } := by
  obtain ⟨⟨hslot, htail, hrange⟩, hH⟩ := hinv
  obtain ⟨ract, rpos⟩ := r
  simp only at hact
  subst hact
  obtain ⟨hge, hlt, hp2, e, hget, -, d1, hd2, -, hbase1, hbr⟩ :=
    consume_inversion s.dist rpos v p2 d2 cbs hc
  subst hp2
  subst hd2
  have hmove := fun q => readersAt_set_move s.readers i rpos (rpos + 1) q hr
  have hidxeq : (((rpos - s.dist.basePosition).toNat : Nat) : Int) = rpos - s.dist.basePosition :=
    Int.toNat_of_nonneg hge
  have hDInv1 : DInv d1 (s.readers.set i { active := true, position := rpos + 1 }) := by
    by_cases hcase : (rpos - s.dist.basePosition).toNat + 1 < s.dist.buf.length
    · rw [if_pos hcase] at hbr
      obtain ⟨hn1, hb1⟩ := hbr
      refine ⟨?_, ?_, ?_⟩
      · intro j e' he'
        rw [hb1] at he'
        rw [hbase1]
        by_cases hj1 : j = (rpos - s.dist.basePosition).toNat
        · subst hj1
          rw [addRef_get_ne 1 _ _ _ (by omega), addRef_get_self (-1) _ _ e hget] at he'
          cases Option.some.inj he'
          have hm := hmove (s.dist.basePosition + (((rpos - s.dist.basePosition).toNat : Nat) : Int))
          rw [if_pos (by omega), if_neg (by omega)] at hm
          have hcnt := hslot (rpos - s.dist.basePosition).toNat e hget
          dsimp only
          omega
        · by_cases hj2 : j = (rpos - s.dist.basePosition).toNat + 1
          · subst hj2
            obtain ⟨e2, hge2⟩ :
                ∃ e2, s.dist.buf.get? ((rpos - s.dist.basePosition).toNat + 1) = some e2 := by
              cases hgx : s.dist.buf.get? ((rpos - s.dist.basePosition).toNat + 1) with
              | none =>
                  rw [List.get?_eq_none] at hgx
                  omega
              | some e2 => exact ⟨e2, rfl⟩
            rw [addRef_get_self 1 _ _ e2
              (by rw [addRef_get_ne (-1) _ _ _ (by omega)]; exact hge2)] at he'
            cases Option.some.inj he'
            have hm := hmove (s.dist.basePosition +
              (((rpos - s.dist.basePosition).toNat + 1 : Nat) : Int))
            rw [if_neg (by push_cast; omega), if_pos (by push_cast; omega)] at hm
            have hcnt := hslot ((rpos - s.dist.basePosition).toNat + 1) e2 hge2
            push_cast at hm hcnt ⊢
            omega
          · rw [addRef_get_ne 1 _ _ _ hj2, addRef_get_ne (-1) _ _ _ hj1] at he'
            have hm := hmove (s.dist.basePosition + (j : Int))
            rw [if_neg (by omega), if_neg (by omega)] at hm
            have hcnt := hslot j e' he'
            omega
      · rw [hn1, hb1, hbase1, addRef_length, addRef_length]
        have hm := hmove (s.dist.basePosition + (s.dist.buf.length : Int))
        rw [if_neg (by omega), if_neg (by omega)] at hm
        rw [htail]
        omega
      · intro r' hr' hact'
        rw [hbase1, hb1, addRef_length, addRef_length]
        rcases List.mem_or_eq_of_mem_set hr' with hold | hnewr
        · exact hrange r' hold hact'
        · subst hnewr
          constructor
          · show s.dist.basePosition ≤ rpos + 1
            omega
          · show rpos + 1 ≤ s.dist.basePosition + (s.dist.buf.length : Int)
            omega
    · rw [if_neg hcase] at hbr
      obtain ⟨hn1, hb1⟩ := hbr
      refine ⟨?_, ?_, ?_⟩
      · intro j e' he'
        rw [hb1] at he'
        rw [hbase1]
        obtain ⟨hjlt, -⟩ := List.get?_eq_some.mp he'
        rw [addRef_length] at hjlt
        by_cases hj1 : j = (rpos - s.dist.basePosition).toNat
        · subst hj1
          rw [addRef_get_self (-1) _ _ e hget] at he'
          cases Option.some.inj he'
          have hm := hmove (s.dist.basePosition + (((rpos - s.dist.basePosition).toNat : Nat) : Int))
          rw [if_pos (by omega), if_neg (by omega)] at hm
          have hcnt := hslot (rpos - s.dist.basePosition).toNat e hget
          dsimp only
          omega
        · rw [addRef_get_ne (-1) _ _ _ hj1] at he'
          have hm := hmove (s.dist.basePosition + (j : Int))
          rw [if_neg (by omega), if_neg (by omega)] at hm
          have hcnt := hslot j e' he'
          omega
      · rw [hn1, hb1, hbase1, addRef_length]
        have hm := hmove (s.dist.basePosition + (s.dist.buf.length : Int))
        rw [if_neg (by omega), if_pos (by omega)] at hm
        rw [htail]
        omega
      · intro r' hr' hact'
        rw [hbase1, hb1, addRef_length]
        rcases List.mem_or_eq_of_mem_set hr' with hold | hnewr
        · exact hrange r' hold hact'
        · subst hnewr
          constructor
          · show s.dist.basePosition ≤ rpos + 1
            omega
          · show rpos + 1 ≤ s.dist.basePosition + (s.dist.buf.length : Int)
            omega
  exact ⟨(cleanup_DInv d1 _ hDInv1).1, (cleanup_DInv d1 _ hDInv1).2⟩

/-- Full inversion of a successful `unsubscribe`: either the reader was at
the tail and `nextRefcount` drops, or its slot refcount drops, running the
trim exactly when the reader sat at the head. -/
theorem unsubscribe_inversion {T : Type} (d : Distributor T) (p : Int)
    (d2 : Distributor T) (cbs : List (Callback T))
    (h : unsubscribe d p = some (d2, cbs)) :
    ((d.buf.length : Int) ≤ p - d.basePosition ∧
      d2 = { d with nextRefcount := d.nextRefcount - 1 } ∧ cbs = []) ∨
    (0 ≤ p - d.basePosition ∧ p - d.basePosition < (d.buf.length : Int) ∧
      ((p - d.basePosition = 0 ∧
        d2 = (cleanupOldEvents
          { d with buf := addRef (-1) (p - d.basePosition).toNat d.buf }).1 ∧
        cbs = (cleanupOldEvents
          { d with buf := addRef (-1) (p - d.basePosition).toNat d.buf }).2) ∨
      (p - d.basePosition ≠ 0 ∧
        d2 = { d with buf := addRef (-1) (p - d.basePosition).toNat d.buf } ∧ cbs = []))) := by
  simp only [unsubscribe] at h
  by_cases hin : p - d.basePosition < (d.buf.length : Int)
  · rw [if_pos hin] at h
    by_cases hneg : p - d.basePosition < 0
    · rw [if_pos hneg] at h
      cases h
    · rw [if_neg hneg] at h
      by_cases h0 : p - d.basePosition = 0
      · rw [if_pos h0] at h
        have h2 := Option.some.inj h
        refine Or.inr ⟨by omega, hin, Or.inl ⟨h0, ?_, ?_⟩⟩
        · exact (congrArg Prod.fst h2).symm
        · exact (congrArg Prod.snd h2).symm
      · rw [if_neg h0] at h
        obtain ⟨h1, h2⟩ := pair_of_some h
        exact Or.inr ⟨by omega, hin, Or.inr ⟨h0, h1.symm, h2.symm⟩⟩
  · rw [if_neg hin] at h
    obtain ⟨h1, h2⟩ := pair_of_some h
    exact Or.inl ⟨by omega, h1.symm, h2.symm⟩

/-- Unsubscribing preserves the whole-system invariant: the retiring reader
releases exactly its one claim (a slot refcount or `nextRefcount`), and the
trim at the head re-establishes the nonzero-head property. -/
theorem unsubscribe_SysInv {T : Type} (s : Sys T) (i : Nat) (r : RState)
    (d2 : Distributor T) (cbs : List (Callback T))
    (hr : s.readers.get? i = some r) (hact : r.active = true)
    (hu : unsubscribe s.dist r.position = some (d2, cbs))
    (hinv : SysInv s) :
    SysInv { dist := d2, readers := s.readers.set i { active := false, position := r.position } } := by
  obtain ⟨⟨hslot, htail, hrange⟩, hH⟩ := hinv
  obtain ⟨ract, rpos⟩ := r
  simp only at hact
  subst hact
  show DInv d2 (s.readers.set i { active := false, position := rpos }) ∧ HeadNZ d2
  have hret := fun q => readersAt_set_retire s.readers i rpos q hr
  have hrng := hrange _ (List.get?_mem hr) rfl
  simp only at hrng
  rcases unsubscribe_inversion s.dist rpos d2 cbs hu with
    ⟨htl, hd2, -⟩ | ⟨hge, hlt, ⟨h0, hd2, -⟩ | ⟨hn0, hd2, -⟩⟩
  · have hbuf : d2.buf = s.dist.buf := by rw [hd2]
    have hbase : d2.basePosition = s.dist.basePosition := by rw [hd2]
    have hnext : d2.nextRefcount = s.dist.nextRefcount - 1 := by rw [hd2]
    have hpeq : rpos = s.dist.basePosition + (s.dist.buf.length : Int) := by omega
    refine ⟨⟨?_, ?_, ?_⟩, ?_⟩
    · intro j e' he'
      rw [hbuf] at he'
      rw [hbase]
      obtain ⟨hjlt, -⟩ := List.get?_eq_some.mp he'
      have hm := hret (s.dist.basePosition + (j : Int))
      rw [if_neg (by omega)] at hm
      have hcnt := hslot j e' he'
      omega
    · rw [hbuf, hbase, hnext, htail]
      have hm := hret (s.dist.basePosition + (s.dist.buf.length : Int))
      rw [if_pos hpeq] at hm
      omega
    · intro r' hr' hact'
      rw [hbuf, hbase]
      rcases List.mem_or_eq_of_mem_set hr' with hold | hnewr
      · exact hrange r' hold hact'
      · rw [hnewr] at hact'
        simp at hact'
    · intro e' he'
      rw [hbuf] at he'
      exact hH e' he'
  · have hDInv1 : DInv
        { s.dist with buf := addRef (-1) (rpos - s.dist.basePosition).toNat s.dist.buf }
        (s.readers.set i { active := false, position := rpos }) := by
      refine ⟨?_, ?_, ?_⟩
      · intro j e' he'
        dsimp only at he' ⊢
        by_cases hj1 : j = (rpos - s.dist.basePosition).toNat
        · subst hj1
          obtain ⟨e, hget⟩ :
              ∃ e, s.dist.buf.get? (rpos - s.dist.basePosition).toNat = some e := by
            cases hgx : s.dist.buf.get? (rpos - s.dist.basePosition).toNat with
            | none =>
                rw [List.get?_eq_none] at hgx
                omega
            | some e => exact ⟨e, rfl⟩
          rw [addRef_get_self (-1) _ _ e hget] at he'
          cases Option.some.inj he'
          have hm := hret (s.dist.basePosition + (((rpos - s.dist.basePosition).toNat : Nat) : Int))
          rw [if_pos (by omega)] at hm
          have hcnt := hslot (rpos - s.dist.basePosition).toNat e hget
          dsimp only
          omega
        · rw [addRef_get_ne (-1) _ _ _ hj1] at he'
          have hm := hret (s.dist.basePosition + (j : Int))
          rw [if_neg (by omega)] at hm
          have hcnt := hslot j e' he'
          omega
      · dsimp only
        rw [addRef_length, htail]
        have hm := hret (s.dist.basePosition + (s.dist.buf.length : Int))
        rw [if_neg (by omega)] at hm
        omega
      · intro r' hr' hact'
        dsimp only
        rw [addRef_length]
        rcases List.mem_or_eq_of_mem_set hr' with hold | hnewr
        · exact hrange r' hold hact'
        · rw [hnewr] at hact'
          simp at hact'
    rw [hd2]
    exact ⟨(cleanup_DInv _ _ hDInv1).1, (cleanup_DInv _ _ hDInv1).2⟩
  · have hbuf : d2.buf = addRef (-1) (rpos - s.dist.basePosition).toNat s.dist.buf := by
      rw [hd2]
    have hbase : d2.basePosition = s.dist.basePosition := by rw [hd2]
    have hnext : d2.nextRefcount = s.dist.nextRefcount := by rw [hd2]
    refine ⟨⟨?_, ?_, ?_⟩, ?_⟩
    · intro j e' he'
      rw [hbuf] at he'
      rw [hbase]
      by_cases hj1 : j = (rpos - s.dist.basePosition).toNat
      · subst hj1
        obtain ⟨e, hget⟩ :
            ∃ e, s.dist.buf.get? (rpos - s.dist.basePosition).toNat = some e := by
          cases hgx : s.dist.buf.get? (rpos - s.dist.basePosition).toNat with
          | none =>
              rw [List.get?_eq_none] at hgx
              omega
          | some e => exact ⟨e, rfl⟩
        rw [addRef_get_self (-1) _ _ e hget] at he'
        cases Option.some.inj he'
        have hm := hret (s.dist.basePosition + (((rpos - s.dist.basePosition).toNat : Nat) : Int))
        rw [if_pos (by omega)] at hm
        have hcnt := hslot (rpos - s.dist.basePosition).toNat e hget
        dsimp only
        omega
      · rw [addRef_get_ne (-1) _ _ _ hj1] at he'
        have hm := hret (s.dist.basePosition + (j : Int))
        rw [if_neg (by omega)] at hm
        have hcnt := hslot j e' he'
        omega
    · rw [hbuf, hbase, hnext, addRef_length, htail]
      have hm := hret (s.dist.basePosition + (s.dist.buf.length : Int))
      rw [if_neg (by omega)] at hm
      omega
    · intro r' hr' hact'
      rw [hbuf, hbase, addRef_length]
      rcases List.mem_or_eq_of_mem_set hr' with hold | hnewr
      · exact hrange r' hold hact'
      · rw [hnewr] at hact'
        simp at hact'
    · intro e' he'
      rw [hbuf] at he'
      rw [addRef_get_ne (-1) _ _ _ (by omega)] at he'
      exact hH e' he'

/-- Every successful public operation preserves the whole-system invariant. -/
theorem sysInv_step {T : Type} (s : Sys T) (a : DistOp T) (s2 : Sys T)
    (cbs : List (Callback T)) (h : applyAct s a = some (s2, cbs)) (hinv : SysInv s) :
    SysInv s2 := by
  cases a with
  | submit v =>
      simp only [applyAct] at h
      obtain ⟨h1, h2⟩ := pair_of_some h
      rw [← h1]
      exact ⟨(submit_DInv s.dist s.readers v hinv.1 hinv.2).1,
        (submit_DInv s.dist s.readers v hinv.1 hinv.2).2⟩
  | subscribe =>
      simp only [applyAct] at h
      obtain ⟨h1, h2⟩ := pair_of_some h
      rw [← h1]
      exact ⟨(subscribe_DInv s.dist s.readers hinv.1 hinv.2).1,
        (subscribe_DInv s.dist s.readers hinv.1 hinv.2).2⟩
  | waitChanOp i =>
      simp only [applyAct] at h
      cases hr : s.readers.get? i with
      | none => rw [hr] at h; cases h
      | some r =>
          rw [hr] at h
          dsimp only at h
          by_cases ha : r.active
          · rw [if_pos ha] at h
            obtain ⟨h1, h2⟩ := pair_of_some h
            rw [← h1]
            obtain ⟨hwb, hwp, hwn⟩ := waitChan_fields s.dist r.position
            refine ⟨DInv_congr s.dist _ s.readers hwb hwp hwn hinv.1, ?_⟩
            intro e he
            rw [hwb] at he
            exact hinv.2 e he
          · rw [if_neg ha] at h
            cases h
  | consumeOp i =>
      simp only [applyAct] at h
      cases hr : s.readers.get? i with
      | none => rw [hr] at h; cases h
      | some r =>
          rw [hr] at h
          dsimp only at h
          by_cases ha : r.active
          · rw [if_pos ha] at h
            cases hc : consume s.dist r.position with
            | none => rw [hc] at h; cases h
            | some res =>
                obtain ⟨v, p2, d2, cbs2⟩ := res
                rw [hc] at h
                dsimp only at h
                obtain ⟨h1, h2⟩ := pair_of_some h
                rw [← h1]
                exact consume_SysInv s i r v p2 d2 cbs2 hr ha hc hinv
          · rw [if_neg ha] at h
            cases h
  | unsubscribeOp i =>
      simp only [applyAct] at h
      cases hr : s.readers.get? i with
      | none => rw [hr] at h; cases h
      | some r =>
          rw [hr] at h
          dsimp only at h
          by_cases ha : r.active
          · rw [if_pos ha] at h
            cases hc : unsubscribe s.dist r.position with
            | none => rw [hc] at h; cases h
            | some res =>
                obtain ⟨d2, cbs2⟩ := res
                rw [hc] at h
                dsimp only at h
                obtain ⟨h1, h2⟩ := pair_of_some h
                rw [← h1]
                exact unsubscribe_SysInv s i r d2 cbs2 hr ha hc hinv
          · rw [if_neg ha] at h
            cases h

/-- The zero-value system satisfies the invariant. -/
theorem sysInv_init (T : Type) : SysInv (initSys T) := by
  refine ⟨⟨?_, ?_, ?_⟩, ?_⟩
  · intro i e he
    simp [initSys, Distributor.new, List.get?] at he
  · rfl
  · intro r hr
    simp [initSys] at hr
  · intro e he
    simp [initSys, Distributor.new, List.get?] at he

/-- The invariant holds in every reachable state. -/
theorem sysInv_run {T : Type} (acts : List (DistOp T)) (s s2 : Sys T)
    (tr : List (Callback T)) (h : runActs s acts = some (s2, tr)) (hinv : SysInv s) :
    SysInv s2 := by
  induction acts generalizing s s2 tr with
  | nil =>
      simp only [runActs] at h
      obtain ⟨h1, -⟩ := pair_of_some h
      rw [← h1]
      exact hinv
  | cons a rest ih =>
      simp only [runActs] at h
      cases ha : applyAct s a with
      | none => rw [ha] at h; cases h
      | some res =>
          obtain ⟨s1, cbs⟩ := res
          rw [ha] at h
          dsimp only at h
          cases hrest : runActs s1 rest with
          | none => rw [hrest] at h; cases h
          | some res2 =>
              obtain ⟨s3, cbs2⟩ := res2
              rw [hrest] at h
              dsimp only at h
              obtain ⟨h1, -⟩ := pair_of_some h
              rw [← h1]
              exact ih s1 s3 cbs2 hrest (sysInv_step s a s1 cbs ha hinv)

/-- C6: in every reachable state, `nextRefcount` equals the number of live
readers whose position is the tail `basePosition + len(backlog)`, and each
slot's refcount equals the number of live readers whose position is that
slot's absolute position (the outstanding claims on it). -/
theorem refcount_counts_readers {T : Type} (acts : List (DistOp T)) (s2 : Sys T)
    (tr : List (Callback T)) (h : runActs (initSys T) acts = some (s2, tr)) :
    s2.dist.nextRefcount =
      (readersAt s2.readers (s2.dist.basePosition + (s2.dist.buf.length : Int)) : Int) ∧
    ∀ i e, s2.dist.buf.get? i = some e →
      e.refcount = (readersAt s2.readers (s2.dist.basePosition + (i : Int)) : Int) := by
  have hinv := sysInv_run acts (initSys T) s2 tr h (sysInv_init T)
  exact ⟨hinv.1.2.1, hinv.1.1⟩

/-- Witness for `refcount_counts_readers`: subscribe then submit. -/
theorem refcount_counts_readers_w :
    runActs (initSys Nat) [DistOp.subscribe, DistOp.submit 4] =
      some ({ dist := { basePosition := 0, buf := [{ refcount := 1, value := 4 }],
                        nextRefcount := 0, waiters := none, nextChanId := 0, closedChans := [] },
              readers := [{ active := true, position := 0 }] },
        [Callback.onSubmit 4, Callback.onBufsizeChange 1]) ∧
    (({ dist := { basePosition := 0, buf := [{ refcount := 1, value := 4 }],
                  nextRefcount := 0, waiters := none, nextChanId := 0, closedChans := [] },
        readers := [{ active := true, position := 0 }] } : Sys Nat).dist.nextRefcount =
      (readersAt [{ active := true, position := 0 }] (0 + ((1 : Nat) : Int)) : Int) ∧
    ∀ i e, (([{ refcount := 1, value := 4 }] : List (EventInfo Nat))).get? i = some e →
      e.refcount = (readersAt [{ active := true, position := 0 }] (0 + (i : Int)) : Int)) :=
  ⟨by decide, refcount_counts_readers [DistOp.subscribe, DistOp.submit 4]
    { dist := { basePosition := 0, buf := [{ refcount := 1, value := 4 }],
                nextRefcount := 0, waiters := none, nextChanId := 0, closedChans := [] },
      readers := [{ active := true, position := 0 }] }
    [Callback.onSubmit 4, Callback.onBufsizeChange 1] (by decide)⟩

/-- C10: in every reachable state a nonempty backlog has a head slot with
strictly positive refcount, and this persists across any further
`Unsubscribe` — in particular a refcount decrement at an index other than 0
(where the code skips the trim) can never leave a trimmable head. -/
theorem head_refcount_positive {T : Type} (acts : List (DistOp T)) (s2 : Sys T)
    (tr : List (Callback T)) (h : runActs (initSys T) acts = some (s2, tr)) :
    (∀ e, s2.dist.buf.get? 0 = some e → 0 < e.refcount) ∧
    (∀ i s3 cbs, applyAct s2 (DistOp.unsubscribeOp i) = some (s3, cbs) →
      ∀ e, s3.dist.buf.get? 0 = some e → 0 < e.refcount) := by
  have hinv := sysInv_run acts (initSys T) s2 tr h (sysInv_init T)
  have hmain : ∀ (s : Sys T), SysInv s → ∀ e, s.dist.buf.get? 0 = some e → 0 < e.refcount := by
    intro s hs e he
    have hz := hs.2 e he
    have hc := hs.1.1 0 e he
    omega
  refine ⟨hmain s2 hinv, ?_⟩
  intro i s3 cbs happ e he
  exact hmain s3 (sysInv_step s2 (DistOp.unsubscribeOp i) s3 cbs happ hinv) e he


/-- Witness for `head_refcount_positive`: subscribe then submit leaves a
head slot with refcount 1. -/
theorem head_refcount_positive_w :
    runActs (initSys Nat) [DistOp.subscribe, DistOp.submit 5] =
      some (headProbeSys, [Callback.onSubmit 5, Callback.onBufsizeChange 1]) ∧
    ((∀ e, headProbeSys.dist.buf.get? 0 = some e → 0 < e.refcount) ∧
      (∀ i s3 cbs, applyAct headProbeSys (DistOp.unsubscribeOp i) = some (s3, cbs) →
        ∀ e, s3.dist.buf.get? 0 = some e → 0 < e.refcount)) :=
  ⟨by decide, head_refcount_positive [DistOp.subscribe, DistOp.submit 5] headProbeSys
    [Callback.onSubmit 5, Callback.onBufsizeChange 1] (by decide)⟩
